import Mathlib

/-!
# Verification of the peruguide-rag core components

A shallow embedding of the five core components of the repository
(recursive chunker, embedding cache / batch processor, FAISS vector store,
semantic retriever, answer generator) together with theorems settling the
specification claims about them.

Modelling conventions:
* Python strings are modelled as `List Char` (for the chunker, where character
  level operations matter) or `String` (for identifiers and cache keys).
* `numpy` float32 vectors are modelled as `List ℤ` (exact values; the claims
  under study are structural — ordering, filtering, counting — and do not
  depend on floating-point rounding).  The derived similarity score
  `1 / (1 + distance)` is kept exactly in `ℚ`.
* Python dicts are modelled as insertion-ordered association lists; assignment
  `d[k] = v` updates the value in place if the key is present and appends
  otherwise, exactly like a Python dict.
* Raised exceptions are modelled with `Except`; the exception class is
  recorded in the `PyErr` type.
-/

/-! ## Generic helpers: Python dict / string primitives -/

/-- First value bound to key `k` in an insertion-ordered association list
(Python `d.get(k)` / `k in d`). -/
def alookup {α β : Type} [DecidableEq α] (k : α) : List (α × β) → Option β
  | [] => none
  | p :: ps => if p.1 = k then some p.2 else alookup k ps

/-- Python dict assignment `d[k] = v`: update in place if `k` is present
(keeping its position in insertion order), append otherwise. -/
def assocUpdate {α β : Type} [DecidableEq α] (l : List (α × β)) (k : α) (v : β) :
    List (α × β) :=
  match l with
  | [] => [(k, v)]
  | p :: ps => if p.1 = k then (k, v) :: ps else p :: assocUpdate ps k v

/-- Characters removed by Python `str.strip()` (ASCII whitespace). -/
def isPySpace (c : Char) : Bool :=
  c == ' ' || c == '\t' || c == '\n' || c == '\x0d' || c == '\x0b' || c == '\x0c'

/-- Python `text.strip()`. -/
def pyStrip (l : List Char) : List Char :=
  ((l.dropWhile isPySpace).reverse.dropWhile isPySpace).reverse

/-- Python slice `s[-n:]` for `n > 0`: the last `min n (length s)` characters. -/
def pySuffix (n : Nat) (l : List Char) : List Char :=
  l.drop (l.length - n)

/-! ## Recursive chunker (`src/data_pipeline/chunkers/recursive_splitter.py`)

`RecursiveCharacterTextSplitter` with parameters `chunk_size` (`cs`),
`chunk_overlap` (`co`), `keep_separator` (`keepSep`, source default `True`)
and a separator priority list.  The constructor validates
`0 < chunk_size`, `0 ≤ chunk_overlap < chunk_size`; theorems carry the parts
of that validation they need as hypotheses. -/

/-- Worker for `splitKeep`.  `fuel` is an upper bound on the number of
characters still to scan (structural recursion only, so that the kernel can
evaluate the function); `acc` accumulates the current piece reversed. -/
def splitKeepAux (sep : List Char) : Nat → List Char → List Char → List (List Char)
  | 0, t, acc => [acc.reverse ++ t]
  | fuel + 1, t, acc =>
    match t with
    | [] => [acc.reverse]
    | c :: rest =>
      if sep.isPrefixOf (c :: rest) then
        acc.reverse :: sep :: splitKeepAux sep fuel (rest.drop (sep.length - 1)) []
      else
        splitKeepAux sep fuel rest (c :: acc)

/-- Python `re.split(f"({re.escape(separator)})", text)` for a non-empty
literal separator: the pieces between non-overlapping left-to-right matches,
with the separator itself captured between consecutive pieces. -/
def splitKeep (sep text : List Char) : List (List Char) :=
  splitKeepAux sep text.length text []

/-- The `keep_separator` merge in `_split_text_recursive`: glue item `2i+1`
(the captured separator) onto item `2i`. -/
def mergePairs : List (List Char) → List (List Char)
  | [] => []
  | [a] => [a]
  | a :: b :: rest => (a ++ b) :: mergePairs rest

/-- `RecursiveCharacterTextSplitter._split_text_recursive`: split by the first
separator (empty separator splits into single characters), drop empty pieces,
glue separators onto the preceding piece when `keep_separator`, keep pieces of
length `≤ chunk_size` and re-split larger pieces with the remaining
separators.  With an exhausted separator list the text is returned as is. -/
def splitRec (cs : Nat) (keepSep : Bool) : List (List Char) → List Char → List (List Char)
  | [], text => if text.isEmpty then [] else [text]
  | sep :: rest, text =>
    let splits0 := if sep.isEmpty then text.map (fun c => [c]) else splitKeep sep text
    let splits1 := splits0.filter (fun s => !s.isEmpty)
    let splits2 := if keepSep && !sep.isEmpty then mergePairs splits1 else splits1
    splits2.flatMap (fun s => if s.length ≤ cs then [s] else splitRec cs keepSep rest s)

/-- The accumulation loop of `_merge_splits`: `cur` is `current_chunk`
(list of pieces), `len` is `current_length`.  When adding the next piece
would exceed `chunk_size` and the current chunk is non-empty, the current
chunk is emitted and the next one is seeded with its trailing
`chunk_overlap` characters. -/
def mergeLoop (cs co : Nat) : List (List Char) → List (List Char) → Nat → List (List Char)
  | [], cur, _ => if cur.isEmpty then [] else [cur.flatten]
  | s :: rest, cur, len =>
    if cs < len + s.length ∧ ¬ cur.isEmpty then
      let chunk := cur.flatten
      let ov := if 0 < co then pySuffix co chunk else []
      chunk :: mergeLoop cs co rest (if ov.isEmpty then [s] else [ov, s]) (ov.length + s.length)
    else
      mergeLoop cs co rest (cur ++ [s]) (len + s.length)

/-- `RecursiveCharacterTextSplitter._merge_splits`. -/
def mergeSplits (cs co : Nat) (splits : List (List Char)) : List (List Char) :=
  if splits.isEmpty then [] else mergeLoop cs co splits [] 0

/-- The source's default separator list `["\n\n", "\n", ". ", " ", ""]`. -/
def defaultSeparators : List (List Char) :=
  [['\n', '\n'], ['\n'], ['.', ' '], [' '], []]

/-- `RecursiveCharacterTextSplitter.split_text`: empty or whitespace-only
input yields `[]`; otherwise recursive splitting followed by merging. -/
def splitText (cs co : Nat) (keepSep : Bool) (seps : List (List Char)) (text : List Char) :
    List (List Char) :=
  if text.isEmpty || (pyStrip text).isEmpty then []
  else mergeSplits cs co (splitRec cs keepSep seps text)

/-! ## Embedding cache key (`src/embedding_pipeline/batch_processor.py`)

`BatchEmbeddingProcessor._compute_hash` hashes the string
`f"{model_name}:{text}"` with SHA-256.  The hash function itself is modelled
as injective on its input string, so the cache key is represented by that
input string. -/

/-- The string hashed by `_compute_hash`; the SHA-256 hex digest is modelled
as an injective function of this content, so key equality is content
equality. -/
def cacheKeyContent (model_name text : String) : String :=
  model_name ++ ":" ++ text

/-! ## Metadata values

Python metadata dicts are `Dict[str, Any]`; the operations the core performs
on the values are equality tests (filtering) and string formatting, so values
are modelled as strings or integers. -/

/-- A metadata / dict value (string or integer). -/
inductive MVal : Type
  | s (v : String)
  | i (v : Int)
deriving DecidableEq

/-- A metadata dict. -/
abbrev Metad : Type := List (String × MVal)

/-- Python truthiness of a metadata value (`""` and `0` are falsy). -/
def pyTruthy : MVal → Bool
  | .s v => v ≠ ""
  | .i v => v ≠ 0

/-- Python `a or b` where `a` is `d.get(key)` (`None` and falsy values fall
through to `b`). -/
def pyOrM (a : Option MVal) (b : MVal) : MVal :=
  match a with
  | some v => if pyTruthy v then v else b
  | none => b

/-- Python `a or b` on two optional values. -/
def pyOrOpt (a b : Option MVal) : Option MVal :=
  match a with
  | some v => if pyTruthy v then some v else b
  | none => b

/-! ## FAISS vector store (`src/vector_store/faiss_store.py`)

`FaissVectorStore(dimension)`: an `IndexFlatL2` index (modelled as the list
of stored vectors, position `i` holding the vector with FAISS index `i`)
plus the three metadata maps. -/

/-- Exception classes raised (or named by the spec's taxonomy) in the code
under study. -/
inductive PyErr : Type
  | valueError
  | configError
  | fileNotFoundError
  | runtimeError
deriving DecidableEq

/-- In-memory state of a `FaissVectorStore`. -/
structure FaissVectorStore : Type where
  dimension : Nat
  /-- The FAISS `IndexFlatL2` contents: stored vectors by position. -/
  index : List (List Int)
  id_to_metadata : List (String × Metad)
  id_to_index : List (String × Nat)
  index_to_id : List (Nat × String)
deriving DecidableEq

/-- `FaissVectorStore.__init__(dimension)`. -/
def emptyStore (dim : Nat) : FaissVectorStore :=
  { dimension := dim, index := [], id_to_metadata := [], id_to_index := [], index_to_id := [] }

/-- Squared Euclidean (L2²) distance, the metric of `IndexFlatL2`. -/
def l2sq (q v : List Int) : Int :=
  ((q.zip v).map (fun p => (p.1 - p.2) * (p.1 - p.2))).sum

/-- Comparison of search candidates `(position, distance)` by distance. -/
def distLe (a b : Nat × Int) : Prop := a.2 ≤ b.2

instance : DecidableRel distLe := fun a b => inferInstanceAs (Decidable (a.2 ≤ b.2))

instance : IsTotal (Nat × Int) distLe := ⟨fun a b => le_total a.2 b.2⟩

instance : IsTrans (Nat × Int) distLe := ⟨fun _ _ _ h1 h2 => le_trans h1 h2⟩

/-- `FaissVectorStore._matches_filters`: every filter key must be present in
the metadata with exactly the filter's value. -/
def matchesFilters (metadata : Metad) (filters : List (String × MVal)) : Bool :=
  filters.all fun kv =>
    match alookup kv.1 metadata with
    | some v => v = kv.2
    | none => false

/-- One search hit as returned by `FaissVectorStore.search`. -/
structure SearchResult : Type where
  id : String
  score : ℚ
  distance : Int
  metadata : Metad
deriving DecidableEq

namespace FaissVectorStore

/-- The candidate list FAISS hands back for a query: all stored vectors
keyed by position with their L2² distance, sorted by ascending distance
(ties by position, matching `IndexFlatL2`), truncated to
`search_k = min (k * 10 if filters else k) ntotal`. -/
def searchCandidates (s : FaissVectorStore) (query_embedding : List Int) (k : Nat)
    (filters : Option (List (String × MVal))) : List (Nat × Int) :=
  let searchK := min (if filters.isSome then k * 10 else k) s.index.length
  (List.insertionSort distLe
    ((List.range s.index.length).map (fun i => (i, l2sq query_embedding (s.index.getD i []))))).take
    searchK

/-- The body of the result loop in `search`: look up the id of the candidate's
position (skipping positions with no id), fetch its metadata (default `{}`),
apply the filters if given, and convert the distance to the score
`1 / (1 + distance)`. -/
def toResult (s : FaissVectorStore) (filters : Option (List (String × MVal)))
    (c : Nat × Int) : Option SearchResult :=
  match alookup c.1 s.index_to_id with
  | none => none
  | some doc_id =>
    let metadata := (alookup doc_id s.id_to_metadata).getD []
    match filters with
    | some f =>
      if matchesFilters metadata f then
        some { id := doc_id, score := 1 / (1 + (c.2 : ℚ)), distance := c.2, metadata := metadata }
      else none
    | none =>
      some { id := doc_id, score := 1 / (1 + (c.2 : ℚ)), distance := c.2, metadata := metadata }

/-- The result loop of `search`: results are appended in candidate order and
the loop breaks as soon as `k` results have been collected. -/
def searchLoop (s : FaissVectorStore) (filters : Option (List (String × MVal)))
    (k : Nat) : List (Nat × Int) → List SearchResult → List SearchResult
  | [], acc => acc
  | c :: cands, acc =>
    match toResult s filters c with
    | none => searchLoop s filters k cands acc
    | some r =>
      if k ≤ (acc ++ [r]).length then acc ++ [r]
      else searchLoop s filters k cands (acc ++ [r])

/-- `FaissVectorStore.search`: dimension check, empty-index short circuit,
over-fetch of `min (k*10 if filters else k) ntotal` candidates, then the
filtering/truncating result loop. -/
def search (s : FaissVectorStore) (query_embedding : List Int) (k : Nat)
    (filters : Option (List (String × MVal))) : Except PyErr (List SearchResult) :=
  if query_embedding.length ≠ s.dimension then .error .valueError
  else if s.index.length = 0 then .ok []
  else .ok (searchLoop s filters k (s.searchCandidates query_embedding k filters) [])

/-- The mapping-update loop of `add`: for the `i`-th id,
`id_to_index[id] = start + i`, `index_to_id[start + i] = id`, and
`id_to_metadata[id] = metadatas[i] if metadatas else {}`. -/
def addLoop : FaissVectorStore → Nat → List (String × Metad) → FaissVectorStore
  | s, _, [] => s
  | s, pos, (doc_id, m) :: rest =>
    addLoop
      { s with
        id_to_index := assocUpdate s.id_to_index doc_id pos
        index_to_id := assocUpdate s.index_to_id pos doc_id
        id_to_metadata := assocUpdate s.id_to_metadata doc_id m }
      (pos + 1) rest

/-- `FaissVectorStore.add`: shape/length validation, duplicate check against
the ids already present, append to the FAISS index, record the mappings.
`embeddings` models a 2D `float32` array of shape `(N, dimension)`, so the
`shape[1]` check becomes a per-row length check. -/
def add (s : FaissVectorStore) (embeddings : List (List Int)) (ids : List String)
    (metadatas : Option (List Metad)) : Except PyErr FaissVectorStore :=
  if ∃ v ∈ embeddings, v.length ≠ s.dimension then .error .valueError
  else if ids.length ≠ embeddings.length then .error .valueError
  else if ∃ ms, metadatas = some ms ∧ ms.length ≠ embeddings.length then .error .valueError
  else if ∃ i ∈ ids, (alookup i s.id_to_index).isSome then .error .valueError
  else
    let start := s.index.length
    let ms := match metadatas with
      | some ms => ms
      | none => ids.map (fun _ => [])
    .ok (addLoop { s with index := s.index ++ embeddings } start (ids.zip ms))

/-- `FaissVectorStore.clear`. -/
def clear (s : FaissVectorStore) : FaissVectorStore :=
  { s with index := [], id_to_metadata := [], id_to_index := [], index_to_id := [] }

/-- `FaissVectorStore.delete`: ids not present are ignored; deleting every
remaining id is `clear`; otherwise the index is rebuilt by reconstructing the
surviving vectors, clearing, and re-adding them (an error from the re-`add`
propagates; it cannot occur on a well-formed store). -/
def delete (s : FaissVectorStore) (ids : List String) :
    Except PyErr (FaissVectorStore × Nat) :=
  let existing := ids.filter (fun i => (alookup i s.id_to_index).isSome)
  if existing.isEmpty then .ok (s, 0)
  else
    let remaining := (s.id_to_index.map Prod.fst).filter (fun i => decide (i ∉ existing))
    if remaining.isEmpty then .ok (s.clear, existing.length)
    else
      let remainingEmb := remaining.map (fun i => s.index.getD ((alookup i s.id_to_index).getD 0) [])
      let remainingMeta := remaining.map (fun i => (alookup i s.id_to_metadata).getD [])
      match s.clear.add remainingEmb remaining (some remainingMeta) with
      | .ok s2 => .ok (s2, existing.length)
      | .error e => .error e

end FaissVectorStore

/-- The `metadata.json` artifact written by `FaissVectorStore.persist`. -/
structure PersistedMetadata : Type where
  dimension : Nat
  num_vectors : Nat
  id_to_metadata : List (String × Metad)
  id_to_index : List (String × Nat)
  index_to_id : List (Nat × String)
deriving DecidableEq

/-- The two artifacts written per persisted path: the binary `index.faiss`
vector blob and the structured `metadata.json`. -/
structure PersistedIndex : Type where
  index_data : List (List Int)
  metadata : PersistedMetadata
deriving DecidableEq

namespace FaissVectorStore

/-- `FaissVectorStore.persist`. -/
def persist (s : FaissVectorStore) : PersistedIndex :=
  { index_data := s.index
    metadata :=
      { dimension := s.dimension
        num_vectors := s.index.length
        id_to_metadata := s.id_to_metadata
        id_to_index := s.id_to_index
        index_to_id := s.index_to_id } }

/-- `FaissVectorStore.load`.  A missing path is `FileNotFoundError`.  The
FAISS index file is read and installed into `self.index` first; only then is
the stored dimension compared with the store's configured dimension, raising
`ValueError` on mismatch (leaving the maps untouched but the vector index
already replaced).  The second component is the in-memory state after the
call, whether it raised or not. -/
def load (s : FaissVectorStore) (persisted : Option PersistedIndex) :
    Except PyErr Unit × FaissVectorStore :=
  match persisted with
  | none => (.error .fileNotFoundError, s)
  | some p =>
    let s1 := { s with index := p.index_data }
    if p.metadata.dimension ≠ s.dimension then (.error .valueError, s1)
    else
      (.ok (),
        { s1 with
          id_to_metadata := p.metadata.id_to_metadata
          id_to_index := p.metadata.id_to_index
          index_to_id := p.metadata.index_to_id })

end FaissVectorStore

/-- One mutating store operation, for reasoning about operation sequences. -/
inductive StoreOp : Type
  | add (embeddings : List (List Int)) (ids : List String) (metadatas : Option (List Metad))
  | del (ids : List String)
  | clear

/-- Apply one operation; a raised (failed) operation leaves the in-memory
state unchanged (all of `add`'s validation happens before any mutation). -/
def applyOp (s : FaissVectorStore) : StoreOp → FaissVectorStore
  | .add e i m =>
    match s.add e i m with
    | .ok s2 => s2
    | .error _ => s
  | .del ids =>
    match s.delete ids with
    | .ok (s2, _) => s2
    | .error _ => s
  | .clear => s.clear

/-- Run a sequence of store operations. -/
def runOps (s : FaissVectorStore) (ops : List StoreOp) : FaissVectorStore :=
  ops.foldl applyOp s

/-- The internal consistency invariant of a `FaissVectorStore`:
the occupied positions (keys of `index_to_id`) are exactly `0..size-1` in
order, `id_to_index` is the literal mirror of `index_to_id` (so the two maps
are mutually inverse), ids are not repeated (bijectivity), `id_to_metadata`
has exactly the key set of `id_to_index`, and every stored vector has the
configured dimension. -/
def storeInv (s : FaissVectorStore) : Prop :=
  s.index_to_id.map Prod.fst = List.range s.index.length ∧
  s.id_to_index = s.index_to_id.map (fun p => (p.2, p.1)) ∧
  s.id_to_metadata.map Prod.fst = s.id_to_index.map Prod.fst ∧
  (s.id_to_index.map Prod.fst).Nodup ∧
  ∀ v ∈ s.index, v.length = s.dimension

instance (s : FaissVectorStore) : Decidable (storeInv s) := by
  unfold storeInv; infer_instance

/-! ## Batch embedding processor (`src/embedding_pipeline/batch_processor.py`)

The cache directory is modelled as a map from cache key to entry; a corrupt
entry is one whose `np.load` raises.  The external embedding capability is a
parameter `encB` (its `encode_batch`), which may fail. -/

/-- A cached embedding file: either loadable or corrupt. -/
inductive CacheEntry : Type
  | good (v : List Int)
  | corrupt
deriving DecidableEq

/-- The on-disk embedding cache, keyed by `_compute_hash` content. -/
abbrev EmbCache : Type := List (String × CacheEntry)

/-- `BatchEmbeddingProcessor._load_from_cache`: a missing entry is `None`;
a corrupt entry raises inside the `try`, is logged, and is also returned as
`None` (a cache miss). -/
def loadFromCache (cache : EmbCache) (key : String) : Option (List Int) :=
  match alookup key cache with
  | some (.good v) => some v
  | some .corrupt => none
  | none => none

/-- `BatchEmbeddingProcessor._save_to_cache`: `np.save` overwrites any
existing file under the same key. -/
def saveToCache (cache : EmbCache) (key : String) (v : List Int) : EmbCache :=
  assocUpdate cache key (.good v)

/-- The cache-check pass of `process_batch`: each text paired with its cache
lookup result. -/
def cacheLookups (model_name : String) (cache : EmbCache) (texts : List String) :
    List (String × Option (List Int)) :=
  texts.map (fun t => (t, loadFromCache cache (cacheKeyContent model_name t)))

/-- The `to_compute` list of `process_batch`: the texts whose lookup missed,
in original order. -/
def toComputeList (model_name : String) (cache : EmbCache) (texts : List String) :
    List String :=
  ((cacheLookups model_name cache texts).filter (fun p => p.2.isNone)).map (fun p => p.1)

/-- Scatter newly computed embeddings back into their original positions:
cached slots keep their cached vector, uncached slots consume the computed
vectors in order.  (Slots a missing computed vector would leave untouched
retain the `np.zeros` row; with a well-behaved embedder this case does not
arise.) -/
def scatterEmb (dim : Nat) : List (String × Option (List Int)) → List (List Int) → List (List Int)
  | [], _ => []
  | (_, some v) :: rest, news => v :: scatterEmb dim rest news
  | (_, none) :: rest, [] => List.replicate dim 0 :: scatterEmb dim rest []
  | (_, none) :: rest, n :: news => n :: scatterEmb dim rest news

/-- Embedding-and-cache statistics returned by `process_batch`. -/
structure BatchStats : Type where
  cached : Nat
  computed : Nat
  total : Nat
deriving DecidableEq

/-- `BatchEmbeddingProcessor.process_batch` (with `use_cache=True`):
look every text up in the cache, call the embedder's `encode_batch` on the
misses only, scatter the computed vectors back into their original
positions, and persist each newly computed vector under its key.  If the
embedding call raises, the whole call fails; the second component is the
cache state after the call. -/
def processBatch (model_name : String) (dim : Nat)
    (encB : List String → Except Unit (List (List Int)))
    (cache : EmbCache) (texts : List String) :
    Except Unit (List (List Int) × BatchStats) × EmbCache :=
  if texts.isEmpty then (.ok ([], ⟨0, 0, 0⟩), cache)
  else
    let lookups := cacheLookups model_name cache texts
    let toCompute := toComputeList model_name cache texts
    let cachedCount := texts.length - toCompute.length
    if toCompute.isEmpty then
      (.ok (lookups.map (fun p => p.2.getD (List.replicate dim 0)),
        ⟨cachedCount, 0, texts.length⟩), cache)
    else
      match encB toCompute with
      | .error e => (.error e, cache)
      | .ok newVecs =>
        let cache2 := (toCompute.zip newVecs).foldl
          (fun c p => saveToCache c (cacheKeyContent model_name p.1) p.2) cache
        (.ok (scatterEmb dim lookups newVecs,
          ⟨cachedCount, toCompute.length, texts.length⟩), cache2)

/-! ## Semantic retriever
(`src/retrieval_pipeline/retrievers/semantic_retriever.py`)

The embedding capability is a parameter `encode` (its `encode` method), which
may fail for a malformed query. -/

/-- `SemanticRetriever.retrieve`: an empty or whitespace-only query raises
`ValueError` before the `try`; inside the `try`, the query is encoded and the
store searched, any exception being re-raised as `RuntimeError`; finally
results below `min_score` are dropped if a threshold is given. -/
def retrieve (encode : String → Except Unit (List Int)) (store : FaissVectorStore)
    (query : String) (k : Nat) (min_score : Option ℚ)
    (filters : Option (List (String × MVal))) : Except PyErr (List SearchResult) :=
  if query.data.isEmpty || (pyStrip query.data).isEmpty then .error .valueError
  else
    match encode query with
    | .error _ => .error .runtimeError
    | .ok query_embedding =>
      match store.search query_embedding k filters with
      | .error _ => .error .runtimeError
      | .ok results =>
        .ok (match min_score with
          | some ms => results.filter (fun r => ms ≤ r.score)
          | none => results)

/-- `SemanticRetriever.batch_retrieve`: an empty query list raises
`ValueError`; otherwise each query is retrieved inside a `try`, a failing
query contributing an empty result list in its slot. -/
def batchRetrieve (encode : String → Except Unit (List Int)) (store : FaissVectorStore)
    (queries : List String) (k : Nat) (min_score : Option ℚ)
    (filters : Option (List (String × MVal))) : Except PyErr (List (List SearchResult)) :=
  if queries.isEmpty then .error .valueError
  else
    .ok (queries.map (fun q =>
      match retrieve encode store q k min_score filters with
      | .ok results => results
      | .error _ => []))

/-! ## Answer generator (`src/rag/answer_generator.py`)

The text-generation capability is modelled as a pair of pure functions of the
prompt (its `generate` and `stream` methods); the retriever as a function
from the query to its results.  Wall-clock latencies and token usage are not
modelled (real time). -/

/-- A chat message. -/
structure Msg : Type where
  role : String
  content : String
deriving DecidableEq

/-- One retrieval-result dict as consumed by the answer generator
(`result.get(key)` on the usual keys). -/
structure RResult : Type where
  id : Option MVal
  doc_id : Option MVal
  content : Option MVal
  text : Option MVal
  score : Option ℚ
  metadata : Metad

/-- One entry of `RAGResponse.sources`. -/
structure SourceRef : Type where
  source_id : Nat
  content : MVal
  score : ℚ
  metadata : Metad
  doc_id : Option MVal

/-- `RAGResponse` (latency and usage fields omitted: real time). -/
structure RAGResponse : Type where
  answer : String
  sources : List SourceRef
  query : String
  model : String

/-- The text-generation capability: `generate` returns a full content string
for a prompt, `stream` a finite fragment sequence; `configModel` is
`llm.config.model`. -/
structure LLMCap : Type where
  genContent : List Msg → String
  genModel : List Msg → String
  streamFrags : List Msg → List String
  configModel : String

/-- Render a metadata value the way an f-string does. -/
def mvalStr : MVal → String
  | .s v => v
  | .i v => toString v

/-- Display of the relevance score (Python `f"{score:.2f}"`; the exact
decimal rendering is immaterial to the claims and is abstracted by
`toString`). -/
def scoreStr (q : ℚ) : String := toString q

/-- `AnswerGenerator._format_context` (with the default
`include_metadata=True`): no results yield the literal sentinel; otherwise
each result becomes a labeled block
`"[Source i] (Title: …, Chapter: …, Page: …) [Relevance: score]\n<content>\n"`
and the blocks are joined with newlines. -/
def formatContext (results : List RResult) : String :=
  if results.isEmpty then "No relevant context found."
  else
    String.intercalate "\n" (results.enum.map (fun p =>
      let idx := p.1 + 1
      let result := p.2
      let metadata := result.metadata
      let metaParts :=
        (match alookup "title" metadata with
          | some v => ["Title: " ++ mvalStr v]
          | none => []) ++
        (match alookup "chapter" metadata with
          | some v => ["Chapter: " ++ mvalStr v]
          | none => []) ++
        (match alookup "page" metadata with
          | some v => ["Page: " ++ mvalStr v]
          | none => [])
      let header0 := "[Source " ++ toString idx ++ "]"
      let header1 :=
        if metadata ≠ [] ∧ metaParts ≠ [] then
          header0 ++ " (" ++ String.intercalate ", " metaParts ++ ")"
        else header0
      let header2 := header1 ++ " [Relevance: " ++ scoreStr ((result.score).getD 0) ++ "]"
      let contentV := pyOrM result.content (pyOrM result.text
        (pyOrM (alookup "content" metadata) (pyOrM (alookup "text" metadata) (.s ""))))
      header2 ++ "\n" ++ mvalStr contentV ++ "\n"))

/-- `AnswerGenerator.SYSTEM_PROMPT` (the literal constant of the source,
abbreviated to its first line; its exact text is immaterial to the claims,
which only require both code paths to use the same constant). -/
def systemPromptText : String :=
  "You are a knowledgeable guide assistant specializing in Peru's history, culture, and geography."

/-- `AnswerGenerator._build_prompt`: the two-message prompt (system
instructions + user question embedding the rendered context). -/
def buildPrompt (query context : String) : List Msg :=
  [{ role := "system", content := systemPromptText },
   { role := "user",
     content := "Based on the following context about Peru, please answer the question.\n\nContext:\n"
       ++ context ++ "\n\nQuestion: " ++ query
       ++ "\n\nPlease provide a comprehensive answer based on the context above." }]

/-- `AnswerGenerator._extract_sources`: 1-based `source_id` in retrieval
order, content from the first truthy of
`result["content"]`, `result["text"]`, `metadata["content"]`,
`metadata["text"]` (else `""`), score defaulting to `0.0`, a copy of the
metadata, and `doc_id` from `result.get("id") or result.get("doc_id")` when
truthy. -/
def extractSources (results : List RResult) : List SourceRef :=
  results.enum.map (fun p =>
    let idx := p.1 + 1
    let result := p.2
    let metadata := result.metadata
    let contentV := pyOrM result.content (pyOrM result.text
      (pyOrM (alookup "content" metadata) (pyOrM (alookup "text" metadata) (.s ""))))
    let docRaw := pyOrOpt result.id result.doc_id
    { source_id := idx
      content := contentV
      score := (result.score).getD 0
      metadata := metadata
      doc_id :=
        match docRaw with
        | some v => if pyTruthy v then some v else none
        | none => none })

/-- `AnswerGenerator.generate`: retrieve, format context, build the prompt,
invoke the text-generation capability, extract sources, assemble the
`RAGResponse`. -/
def generateAnswer (retrieveF : String → List RResult) (llm : LLMCap) (query : String) :
    RAGResponse :=
  let results := retrieveF query
  let context := formatContext results
  let messages := buildPrompt query context
  { answer := llm.genContent messages
    sources := extractSources results
    query := query
    model := llm.genModel messages }

/-- `AnswerGenerator.stream`: identical retrieval and context formatting,
then the capability's incremental mode; every fragment is yielded in order
(first component) while being concatenated, and only after the last fragment
is the final `RAGResponse` (second component) assembled from the full
concatenation and the extracted sources. -/
def streamAnswer (retrieveF : String → List RResult) (llm : LLMCap) (query : String) :
    List String × RAGResponse :=
  let results := retrieveF query
  let context := formatContext results
  let messages := buildPrompt query context
  let frags := llm.streamFrags messages
  (frags,
    { answer := frags.foldl (fun a c => a ++ c) ""
      sources := extractSources results
      query := query
      model := llm.configModel })

deriving instance DecidableEq for Except

/-- The map part of `storeInv`, parameterized by the number of occupied
positions: used while `addLoop` is part-way through recording new ids. -/
def mapsInv (s : FaissVectorStore) (n : Nat) : Prop :=
  s.index_to_id.map Prod.fst = List.range n ∧
  s.id_to_index = s.index_to_id.map (fun p => (p.2, p.1)) ∧
  s.id_to_metadata.map Prod.fst = s.id_to_index.map Prod.fst ∧
  (s.id_to_index.map Prod.fst).Nodup

/-- The side condition under which C9's invariant survives an `add`: the ids
of one `add` call are pairwise distinct.  (`add` itself does not check
this — it only rejects ids already present — which is what breaks the
original claim.) -/
def opIdsNodup : StoreOp → Prop
  | .add _ ids _ => ids.Nodup
  | .del _ => True
  | .clear => True

instance : DecidablePred opIdsNodup := fun op =>
  match op with
  | .add _ ids _ => inferInstanceAs (Decidable ids.Nodup)
  | .del _ => inferInstanceAs (Decidable True)
  | .clear => inferInstanceAs (Decidable True)

/-! ## Helper lemmas -/

theorem alookup_assocUpdate_self {α β : Type} [DecidableEq α] (l : List (α × β)) (k : α) (v : β) :
    alookup k (assocUpdate l k v) = some v := by
  induction l with
  | nil => simp [assocUpdate, alookup]
  | cons p ps ih =>
    by_cases h : p.1 = k
    · simp [assocUpdate, alookup, h]
    · simp [assocUpdate, alookup, h, ih]

theorem alookup_assocUpdate_other {α β : Type} [DecidableEq α] (l : List (α × β)) (k k2 : α)
    (v : β) (h : k ≠ k2) : alookup k2 (assocUpdate l k v) = alookup k2 l := by
  induction l with
  | nil => simp [assocUpdate, alookup, h]
  | cons p ps ih =>
    by_cases hp : p.1 = k
    · simp [assocUpdate, alookup, hp, h]
    · simp only [assocUpdate, hp, if_false, alookup]
      by_cases hp2 : p.1 = k2 <;> simp [hp2, ih]

theorem mem_zip_left {α β : Type} {a : α} :
    ∀ {l1 : List α} {l2 : List β}, a ∈ l1 → l2.length = l1.length → ∃ b, (a, b) ∈ l1.zip l2 := by
  intro l1
  induction l1 with
  | nil => intro l2 h; cases h
  | cons x xs ih =>
    intro l2 h hlen
    cases l2 with
    | nil => simp at hlen
    | cons y ys =>
      rcases List.mem_cons.mp h with rfl | hmem
      · exact ⟨y, List.mem_cons_self _ _⟩
      · rcases ih hmem (by simpa using hlen) with ⟨b, hb⟩
        exact ⟨b, List.mem_cons_of_mem _ hb⟩

/-- Injectivity of `a ++ c :: b` when `c` occurs in neither prefix. -/
theorem append_sep_inj {α : Type} (c : α) :
    ∀ (a1 a2 b1 b2 : List α), c ∉ a1 → c ∉ a2 →
      a1 ++ c :: b1 = a2 ++ c :: b2 → a1 = a2 ∧ b1 = b2 := by
  intro a1
  induction a1 with
  | nil =>
    intro a2 b1 b2 _ h2 h
    cases a2 with
    | nil => simpa using h
    | cons x xs =>
      simp only [List.nil_append, List.cons_append, List.cons.injEq] at h
      exact absurd (h.1 ▸ List.mem_cons_self x xs) h2
  | cons x xs ih =>
    intro a2 b1 b2 h1 h2 h
    cases a2 with
    | nil =>
      simp only [List.cons_append, List.nil_append, List.cons.injEq] at h
      exact absurd (h.1.symm ▸ List.mem_cons_self x xs) h1
    | cons y ys =>
      simp only [List.cons_append, List.cons.injEq] at h
      obtain ⟨rfl, h⟩ := h
      obtain ⟨rfl, rfl⟩ := ih ys b1 b2 (fun hc => h1 (List.mem_cons_of_mem _ hc))
        (fun hc => h2 (List.mem_cons_of_mem _ hc)) h
      exact ⟨rfl, rfl⟩

/-! ## C3 — cache key determinism and injectivity -/

/-- C3 counterexample: the colon encoding `model_name ++ ":" ++ text` is not
injective on pairs: `("a", "b:c")` and `("a:b", "c")` are distinct pairs with
the same cache-key content, so (modeling the hash as injective on its input
string) they collide in the cache. -/
theorem cacheKey_collision_cex :
    cacheKeyContent "a" "b:c" = cacheKeyContent "a:b" "c" ∧
    ¬ (("a" : String) = "a:b" ∧ ("b:c" : String) = "c") := by
  constructor
  · rfl
  · intro h; exact absurd h.1 (by decide)

/-- C3 (amended): the same `(model_name, text)` pair always maps to the same
key, and — provided the model names contain no colon, as real embedding-model
identifiers here do — keys of distinct pairs are distinct: key equality holds
iff both components agree. -/
theorem cacheKey_inj_of_colon_free (m1 m2 t1 t2 : String)
    (h1 : ':' ∉ m1.data) (h2 : ':' ∉ m2.data) :
    cacheKeyContent m1 t1 = cacheKeyContent m2 t2 ↔ m1 = m2 ∧ t1 = t2 := by
  constructor
  · intro h
    have hd : m1.data ++ ':' :: t1.data = m2.data ++ ':' :: t2.data := by
      have := congrArg String.data h
      simpa [cacheKeyContent, String.data_append] using this
    obtain ⟨hm, ht⟩ := append_sep_inj ':' m1.data m2.data t1.data t2.data h1 h2 hd
    exact ⟨String.ext hm, String.ext ht⟩
  · rintro ⟨rfl, rfl⟩; rfl

/-- Witness for C3 at a concrete input: with a colon-free model name,
distinct texts give distinct cache keys. -/
theorem cacheKey_inj_witness : cacheKeyContent "e5-small" "hola" ≠ cacheKeyContent "e5-small" "adios" :=
  fun h =>
    absurd ((cacheKey_inj_of_colon_free "e5-small" "e5-small" "hola" "adios"
      (by decide) (by decide)).mp h).2 (by decide)

/-! ## C1 — `load` on a dimension mismatch -/

/-- C1 counterexample: loading a persisted index whose stored dimension (3)
differs from the store's configured dimension (2) raises `ValueError` — not
the spec's `ConfigError` — and does so only after the vector data has been
read and installed, so the in-memory state (its vector index) is changed. -/
theorem load_dim_mismatch_cex :
    (FaissVectorStore.load
        ⟨2, [[1, 2]], [("a", [])], [("a", 0)], [(0, "a")]⟩
        (some ⟨[[1, 2, 3]], ⟨3, 1, [("b", [])], [("b", 0)], [(0, "b")]⟩⟩)).1
      = .error .valueError ∧
    PyErr.valueError ≠ PyErr.configError ∧
    (FaissVectorStore.load
        ⟨2, [[1, 2]], [("a", [])], [("a", 0)], [(0, "a")]⟩
        (some ⟨[[1, 2, 3]], ⟨3, 1, [("b", [])], [("b", 0)], [(0, "b")]⟩⟩)).2
      ≠ ⟨2, [[1, 2]], [("a", [])], [("a", 0)], [(0, "a")]⟩ := by
  decide

/-- C1 (amended): for every store and persisted path whose stored dimension
differs from the store's configured dimension, `load` fails with `ValueError`;
the mismatch is detected only after the vector data has been read (the
in-memory FAISS index is already replaced by the loaded vectors), while the
id/position/metadata maps are left unchanged. -/
theorem load_dim_mismatch (s : FaissVectorStore) (p : PersistedIndex)
    (h : p.metadata.dimension ≠ s.dimension) :
    (s.load (some p)).1 = .error .valueError ∧
    (s.load (some p)).2.index = p.index_data ∧
    (s.load (some p)).2.id_to_index = s.id_to_index ∧
    (s.load (some p)).2.index_to_id = s.index_to_id ∧
    (s.load (some p)).2.id_to_metadata = s.id_to_metadata := by
  simp [FaissVectorStore.load, h]

/-- Witness for C1 at a concrete input. -/
theorem load_dim_mismatch_witness :
    (3 : Nat) ≠ 2 ∧
    ((FaissVectorStore.load (emptyStore 2)
        (some ⟨[[5, 6, 7]], ⟨3, 1, [], [], []⟩⟩)).1 = .error .valueError ∧
      (FaissVectorStore.load (emptyStore 2)
        (some ⟨[[5, 6, 7]], ⟨3, 1, [], [], []⟩⟩)).2.index = [[5, 6, 7]] ∧
      (FaissVectorStore.load (emptyStore 2)
        (some ⟨[[5, 6, 7]], ⟨3, 1, [], [], []⟩⟩)).2.id_to_index = (emptyStore 2).id_to_index ∧
      (FaissVectorStore.load (emptyStore 2)
        (some ⟨[[5, 6, 7]], ⟨3, 1, [], [], []⟩⟩)).2.index_to_id = (emptyStore 2).index_to_id ∧
      (FaissVectorStore.load (emptyStore 2)
        (some ⟨[[5, 6, 7]], ⟨3, 1, [], [], []⟩⟩)).2.id_to_metadata = (emptyStore 2).id_to_metadata) :=
  ⟨by decide, load_dim_mismatch (emptyStore 2) ⟨[[5, 6, 7]], ⟨3, 1, [], [], []⟩⟩ (by decide)⟩

/-! ## C8 — streaming refinement of `generate` -/

/-- C8: with the text-generation capability yielding a fixed fragment
sequence per prompt and the retriever yielding fixed results per query, the
streaming variant yields exactly the capability's fragments for the same
prompt the non-streaming path builds, assembles the final `RAGResponse` only
after the last fragment — its `answer` is the in-order concatenation of all
yielded fragments — and its `sources` list is identical to the sources of
the non-streaming `generate` path. -/
theorem stream_matches_generate (retrieveF : String → List RResult) (llm : LLMCap)
    (query : String) :
    (streamAnswer retrieveF llm query).1
      = llm.streamFrags (buildPrompt query (formatContext (retrieveF query))) ∧
    (streamAnswer retrieveF llm query).2.answer
      = ((streamAnswer retrieveF llm query).1).foldl (fun a c => a ++ c) "" ∧
    (streamAnswer retrieveF llm query).2.sources
      = (generateAnswer retrieveF llm query).sources :=
  ⟨rfl, rfl, rfl⟩

/-! ## C7 — `batch_retrieve` alignment and per-query failure isolation -/

/-- C7: for every non-empty query list, `batch_retrieve` succeeds (it never
raises for per-query failures), returns exactly one result list per query in
input order, and every slot holds the query's `retrieve` results when that
query succeeded and `[]` when it failed (empty/whitespace query, encoding
error, or search error). -/
theorem batchRetrieve_alignment (encode : String → Except Unit (List Int))
    (store : FaissVectorStore) (queries : List String) (k : Nat) (min_score : Option ℚ)
    (filters : Option (List (String × MVal))) (h : queries ≠ []) :
    ∃ out, batchRetrieve encode store queries k min_score filters = .ok out ∧
      out.length = queries.length ∧
      ∀ i (hi : i < queries.length),
        out.getD i [] =
          match retrieve encode store (queries.get ⟨i, hi⟩) k min_score filters with
          | .ok results => results
          | .error _ => [] := by
  refine ⟨queries.map (fun q =>
    match retrieve encode store q k min_score filters with
    | .ok results => results
    | .error _ => []), ?_, by simp, ?_⟩
  · simp [batchRetrieve, h]
  · intro i hi
    rw [List.getD_eq_getElem?_getD, List.getElem?_map]
    simp [List.getElem?_eq_getElem hi]

/-- Witness for C7 at a concrete input: a whitespace-only query fails and
yields `[]` in its slot while the batch call still succeeds. -/
theorem batchRetrieve_alignment_witness :
    ([" ", "hi"] : List String) ≠ [] ∧
    batchRetrieve (fun _ => .ok [5]) (emptyStore 1) [" ", "hi"] 1 none none = .ok [[], []] ∧
    (∃ out, batchRetrieve (fun _ => .ok [5]) (emptyStore 1) [" ", "hi"] 1 none none = .ok out ∧
      out.length = ([" ", "hi"] : List String).length ∧
      ∀ i (hi : i < ([" ", "hi"] : List String).length),
        out.getD i [] =
          match retrieve (fun _ => .ok [5]) (emptyStore 1)
              (([" ", "hi"] : List String).get ⟨i, hi⟩) 1 none none with
          | .ok results => results
          | .error _ => []) :=
  ⟨by decide, by decide,
    batchRetrieve_alignment (fun _ => .ok [5]) (emptyStore 1) [" ", "hi"] 1 none none (by decide)⟩

/-! ## C6 — batch embedding failure semantics -/

theorem loadFromCache_corrupt (cache : EmbCache) (key : String)
    (h : alookup key cache = some .corrupt) : loadFromCache cache key = none := by
  simp [loadFromCache, h]

theorem mem_toCompute (model_name : String) (cache : EmbCache) (texts : List String)
    (t : String) (ht : t ∈ texts)
    (hmiss : loadFromCache cache (cacheKeyContent model_name t) = none) :
    t ∈ toComputeList model_name cache texts := by
  unfold toComputeList cacheLookups
  rw [List.mem_map]
  refine ⟨(t, loadFromCache cache (cacheKeyContent model_name t)), ?_, rfl⟩
  rw [List.mem_filter]
  exact ⟨List.mem_map.mpr ⟨t, ht, rfl⟩, by simp [hmiss]⟩

/-- After the cache-write fold, any key that was already bound to a loadable
entry or is written during the fold is bound to a loadable entry. -/
theorem fold_save_good (model_name k : String) :
    ∀ (pairs : List (String × List Int)) (c : EmbCache),
      ((∃ v, alookup k c = some (.good v)) ∨ (∃ p ∈ pairs, cacheKeyContent model_name p.1 = k)) →
      ∃ v, alookup k
        (pairs.foldl (fun c2 p => saveToCache c2 (cacheKeyContent model_name p.1) p.2) c)
        = some (CacheEntry.good v) := by
  intro pairs
  induction pairs with
  | nil =>
    intro c h
    rcases h with h | ⟨p, hp, _⟩
    · simpa using h
    · cases hp
  | cons p rest ih =>
    intro c h
    rw [List.foldl_cons]
    by_cases hk : cacheKeyContent model_name p.1 = k
    · refine ih _ (Or.inl ⟨p.2, ?_⟩)
      rw [saveToCache, ← hk, alookup_assocUpdate_self]
    · rcases h with ⟨v, hv⟩ | ⟨q, hq, hqk⟩
      · refine ih _ (Or.inl ⟨v, ?_⟩)
        rw [saveToCache, alookup_assocUpdate_other _ _ _ _ hk, hv]
      · rcases List.mem_cons.mp hq with rfl | hq2
        · exact absurd hqk hk
        · exact ih _ (Or.inr ⟨q, hq2, hqk⟩)

/-- C6: if the batch embedding call fails, the whole `process_batch` call
fails with that error and the cache is exactly as before (no partial writes
for the failed batch); and a corrupt cache entry for a text of the batch is
treated as a cache miss, not a fatal error: the text is re-sent to the
embedder and, when the embedding call succeeds, the call succeeds and the
corrupt entry is overwritten by a loadable one. -/
theorem processBatch_failure_semantics (model_name : String) (dim : Nat)
    (encB : List String → Except Unit (List (List Int)))
    (cache : EmbCache) (texts : List String) :
    (∀ e, toComputeList model_name cache texts ≠ [] →
      encB (toComputeList model_name cache texts) = .error e →
      processBatch model_name dim encB cache texts = (.error e, cache)) ∧
    (∀ t newVecs, t ∈ texts →
      alookup (cacheKeyContent model_name t) cache = some .corrupt →
      encB (toComputeList model_name cache texts) = .ok newVecs →
      newVecs.length = (toComputeList model_name cache texts).length →
      (processBatch model_name dim encB cache texts).1.isOk = true ∧
      t ∈ toComputeList model_name cache texts ∧
      ∃ v, alookup (cacheKeyContent model_name t)
        (processBatch model_name dim encB cache texts).2 = some (CacheEntry.good v)) := by
  constructor
  · intro e hne hfail
    have htexts : texts ≠ [] := by
      intro h; exact hne (by simp [h, toComputeList, cacheLookups])
    have h1 : texts.isEmpty = false := by simpa [List.isEmpty_iff] using htexts
    have h2 : (toComputeList model_name cache texts).isEmpty = false := by
      simpa [List.isEmpty_iff] using hne
    simp only [processBatch, h1, Bool.false_eq_true, if_false, h2, hfail]
  · intro t newVecs ht hcorr hok hlen
    have hmiss : loadFromCache cache (cacheKeyContent model_name t) = none :=
      loadFromCache_corrupt _ _ hcorr
    have htc : t ∈ toComputeList model_name cache texts :=
      mem_toCompute model_name cache texts t ht hmiss
    have hne : toComputeList model_name cache texts ≠ [] := List.ne_nil_of_mem htc
    have htexts : texts ≠ [] := List.ne_nil_of_mem ht
    have h1 : texts.isEmpty = false := by simpa [List.isEmpty_iff] using htexts
    have h2 : (toComputeList model_name cache texts).isEmpty = false := by
      simpa [List.isEmpty_iff] using hne
    have hred : processBatch model_name dim encB cache texts =
        (.ok (scatterEmb dim (cacheLookups model_name cache texts) newVecs,
          ⟨texts.length - (toComputeList model_name cache texts).length,
            (toComputeList model_name cache texts).length, texts.length⟩),
          ((toComputeList model_name cache texts).zip newVecs).foldl
            (fun c p => saveToCache c (cacheKeyContent model_name p.1) p.2) cache) := by
      simp only [processBatch, h1, Bool.false_eq_true, if_false, h2, hok]
    refine ⟨by rw [hred]; rfl, htc, ?_⟩
    rw [hred]
    refine fold_save_good model_name (cacheKeyContent model_name t) _ cache (Or.inr ?_)
    obtain ⟨b, hb⟩ := mem_zip_left htc hlen
    exact ⟨(t, b), hb, rfl⟩

/-- Witness for C6 at a concrete input: a one-text batch whose cache entry is
corrupt is recomputed, the call succeeds and the corrupt entry is replaced by
a loadable one; the whole `processBatch` evaluation is checked concretely. -/
theorem processBatch_failure_witness :
    processBatch "m" 1 (fun _ => .ok [[7]])
        [(cacheKeyContent "m" "x", .corrupt)] ["x"]
      = (.ok ([[7]], ⟨0, 1, 1⟩), [(cacheKeyContent "m" "x", .good [7])]) ∧
    ("x" ∈ (["x"] : List String) ∧
      alookup (cacheKeyContent "m" "x") [(cacheKeyContent "m" "x", CacheEntry.corrupt)]
        = some .corrupt) ∧
    ((processBatch "m" 1 (fun _ => .ok [[7]])
        [(cacheKeyContent "m" "x", .corrupt)] ["x"]).1.isOk = true ∧
      "x" ∈ toComputeList "m" [(cacheKeyContent "m" "x", .corrupt)] ["x"] ∧
      ∃ v, alookup (cacheKeyContent "m" "x")
        (processBatch "m" 1 (fun _ => .ok [[7]])
          [(cacheKeyContent "m" "x", .corrupt)] ["x"]).2 = some (CacheEntry.good v)) :=
  ⟨by decide, ⟨by decide, by decide⟩,
    (processBatch_failure_semantics "m" 1 (fun _ => .ok [[7]])
        [(cacheKeyContent "m" "x", .corrupt)] ["x"]).2 "x" [[7]]
      (by decide) (by decide) rfl (by decide)⟩

/-! ## C2 — filtered search -/

theorem toResult_distance (s : FaissVectorStore) (filters : Option (List (String × MVal)))
    (c : Nat × Int) (r : SearchResult) (h : s.toResult filters c = some r) :
    r.distance = c.2 := by
  unfold FaissVectorStore.toResult at h
  rcases halook : alookup c.1 s.index_to_id with _ | doc_id <;> rw [halook] at h
  · cases h
  · rcases filters with _ | f
    · cases h; rfl
    · by_cases hm : matchesFilters ((alookup doc_id s.id_to_metadata).getD []) f = true
      · simp only [hm, if_true] at h; cases h; rfl
      · simp only [hm, if_false] at h; cases h

theorem toResult_matches (s : FaissVectorStore) (f : List (String × MVal))
    (c : Nat × Int) (r : SearchResult) (h : s.toResult (some f) c = some r) :
    matchesFilters r.metadata f = true := by
  unfold FaissVectorStore.toResult at h
  rcases halook : alookup c.1 s.index_to_id with _ | doc_id <;> rw [halook] at h
  · cases h
  · by_cases hm : matchesFilters ((alookup doc_id s.id_to_metadata).getD []) f = true
    · simp only [hm, if_true] at h; cases h; exact hm
    · simp only [hm, if_false] at h; cases h

/-- The result loop is: filter the candidates through `toResult`, then
truncate to the first `k`. -/
theorem searchLoop_eq (s : FaissVectorStore) (filters : Option (List (String × MVal)))
    (k : Nat) :
    ∀ (cands : List (Nat × Int)) (acc : List SearchResult), acc.length < k →
      FaissVectorStore.searchLoop s filters k cands acc
        = acc ++ (cands.filterMap (s.toResult filters)).take (k - acc.length) := by
  intro cands
  induction cands with
  | nil => intro acc _; simp [FaissVectorStore.searchLoop]
  | cons c rest ih =>
    intro acc hacc
    unfold FaissVectorStore.searchLoop
    rcases hres : s.toResult filters c with _ | r
    · simpa [hres] using ih acc hacc
    · simp only [hres, List.length_append, List.length_cons, List.length_nil]
      by_cases hk : k ≤ acc.length + 1
      · have hkeq : k = acc.length + 1 := le_antisymm hk hacc
        simp [hkeq, List.filterMap_cons, hres, List.take_succ_cons]
      · have hlt : (acc ++ [r]).length < k := by
          simp only [List.length_append, List.length_cons, List.length_nil]
          omega
        rw [if_neg (by simpa using hk), ih (acc ++ [r]) hlt]
        have harith : k - acc.length = (k - (acc.length + 1)) + 1 := by omega
        simp [List.filterMap_cons, hres, harith, List.take_succ_cons]

theorem filterMap_length_eq_filter_isSome {α β : Type} (g : α → Option β) :
    ∀ l : List α, (l.filterMap g).length = (l.filter (fun x => (g x).isSome)).length := by
  intro l
  induction l with
  | nil => rfl
  | cons x xs ih =>
    rcases h : g x with _ | b <;>
      simp [List.filterMap_cons, List.filter_cons, h, ih]

theorem filterMap_toResult_dist_sublist (s : FaissVectorStore)
    (filters : Option (List (String × MVal))) :
    ∀ cands : List (Nat × Int),
      ((cands.filterMap (s.toResult filters)).map SearchResult.distance).Sublist
        (cands.map Prod.snd) := by
  intro cands
  induction cands with
  | nil => simp
  | cons c rest ih =>
    rcases h : s.toResult filters c with _ | r
    · simp only [List.filterMap_cons, h, List.map_cons]
      exact ih.cons c.2
    · simp only [List.filterMap_cons, h, List.map_cons]
      rw [toResult_distance s filters c r h]
      exact ih.cons₂ c.2

/-- The candidate list handed to the result loop is sorted by ascending
distance. -/
theorem searchCandidates_sorted (s : FaissVectorStore) (q : List Int) (k : Nat)
    (filters : Option (List (String × MVal))) :
    List.Sorted (· ≤ ·) ((s.searchCandidates q k filters).map Prod.snd) := by
  unfold FaissVectorStore.searchCandidates
  have hsorted : List.Sorted distLe
      (List.insertionSort distLe
        ((List.range s.index.length).map (fun i => (i, l2sq q (s.index.getD i []))))) :=
    List.sorted_insertionSort distLe _
  have htake : List.Sorted distLe
      ((List.insertionSort distLe
        ((List.range s.index.length).map (fun i => (i, l2sq q (s.index.getD i []))))).take
        (min (if filters.isSome then k * 10 else k) s.index.length)) :=
    List.Pairwise.sublist (List.take_sublist _ _) hsorted
  exact List.Pairwise.map Prod.snd (fun a b h => h) htake

/-- C2 (amended): `search` with filters post-filters the
`min (k*10) size` nearest candidates by exact key/value equality before
truncating to `k`; whenever at least `k` of those over-fetched candidates
pass the filter, exactly `k` results are returned, each matching every
filter, sorted by ascending distance.  (The over-fetch is capped at `k*10`,
so `k` matching stored vectors beyond the cap do not guarantee `k`
results — see the counterexample.) -/
theorem search_filtered_amended (s : FaissVectorStore) (q : List Int) (k : Nat)
    (f : List (String × MVal)) (hdim : q.length = s.dimension) (hk : 0 < k)
    (hmatch : k ≤ ((s.searchCandidates q k (some f)).filter
      (fun c => (s.toResult (some f) c).isSome)).length) :
    ∃ r, s.search q k (some f) = .ok r ∧
      r.length = k ∧
      (∀ x ∈ r, matchesFilters x.metadata f = true) ∧
      List.Sorted (· ≤ ·) (r.map SearchResult.distance) := by
  have hne : s.index.length ≠ 0 := by
    intro h0
    rw [show s.searchCandidates q k (some f) = [] by
      unfold FaissVectorStore.searchCandidates; simp [h0]] at hmatch
    simp at hmatch
    omega
  have hsearch : s.search q k (some f)
      = .ok (FaissVectorStore.searchLoop s (some f) k (s.searchCandidates q k (some f)) []) := by
    unfold FaissVectorStore.search
    rw [if_neg (by omega), if_neg hne]
  have hloop : FaissVectorStore.searchLoop s (some f) k (s.searchCandidates q k (some f)) []
      = ((s.searchCandidates q k (some f)).filterMap (s.toResult (some f))).take k := by
    rw [searchLoop_eq s (some f) k _ [] (by simpa using hk)]
    simp
  refine ⟨_, hsearch, ?_, ?_, ?_⟩
  · rw [hloop, List.length_take,
      filterMap_length_eq_filter_isSome (s.toResult (some f)) (s.searchCandidates q k (some f))]
    omega
  · intro x hx
    rw [hloop] at hx
    obtain ⟨c, _, hc⟩ := List.mem_filterMap.mp (List.mem_of_mem_take hx)
    exact toResult_matches s f c x hc
  · rw [hloop]
    refine List.Pairwise.sublist ?_ (searchCandidates_sorted s q k (some f))
    exact ((List.take_sublist _ _).map SearchResult.distance).trans
      (filterMap_toResult_dist_sublist s (some f) _)

/-- C2 counterexample: a store of 11 one-dimensional vectors where only the
farthest vector (`"v10"`) matches the filter.  With `k = 1` the over-fetch is
`min (1*10) 11 = 10` candidates, which excludes `"v10"`, so the search
returns no result even though at least `k = 1` stored vector has metadata
matching every filter — filtering does silently under-fill the requested
`k`. -/
theorem search_underfill_cex :
    FaissVectorStore.search
        ⟨1, [[0], [1], [2], [3], [4], [5], [6], [7], [8], [9], [10]],
          [("v0", [("t", .i 0)]), ("v1", [("t", .i 0)]), ("v2", [("t", .i 0)]),
            ("v3", [("t", .i 0)]), ("v4", [("t", .i 0)]), ("v5", [("t", .i 0)]),
            ("v6", [("t", .i 0)]), ("v7", [("t", .i 0)]), ("v8", [("t", .i 0)]),
            ("v9", [("t", .i 0)]), ("v10", [("t", .i 1)])],
          [("v0", 0), ("v1", 1), ("v2", 2), ("v3", 3), ("v4", 4), ("v5", 5),
            ("v6", 6), ("v7", 7), ("v8", 8), ("v9", 9), ("v10", 10)],
          [(0, "v0"), (1, "v1"), (2, "v2"), (3, "v3"), (4, "v4"), (5, "v5"),
            (6, "v6"), (7, "v7"), (8, "v8"), (9, "v9"), (10, "v10")]⟩
        [0] 1 (some [("t", MVal.i 1)])
      = .ok [] ∧
    1 ≤ ((⟨1, [[0], [1], [2], [3], [4], [5], [6], [7], [8], [9], [10]],
          [("v0", [("t", .i 0)]), ("v1", [("t", .i 0)]), ("v2", [("t", .i 0)]),
            ("v3", [("t", .i 0)]), ("v4", [("t", .i 0)]), ("v5", [("t", .i 0)]),
            ("v6", [("t", .i 0)]), ("v7", [("t", .i 0)]), ("v8", [("t", .i 0)]),
            ("v9", [("t", .i 0)]), ("v10", [("t", .i 1)])],
          [("v0", 0), ("v1", 1), ("v2", 2), ("v3", 3), ("v4", 4), ("v5", 5),
            ("v6", 6), ("v7", 7), ("v8", 8), ("v9", 9), ("v10", 10)],
          [(0, "v0"), (1, "v1"), (2, "v2"), (3, "v3"), (4, "v4"), (5, "v5"),
            (6, "v6"), (7, "v7"), (8, "v8"), (9, "v9"), (10, "v10")]⟩ :
        FaissVectorStore).id_to_metadata.filter
          (fun p => matchesFilters p.2 [("t", MVal.i 1)])).length := by
  decide

/-- Witness for C2 at a concrete input: two stored vectors, both matching the
filter; `k = 1` returns exactly one matching result. -/
theorem search_filtered_witness :
    (([0] : List Int).length
      = (⟨1, [[0], [3]], [("a", [("t", .i 1)]), ("b", [("t", .i 1)])],
          [("a", 0), ("b", 1)], [(0, "a"), (1, "b")]⟩ : FaissVectorStore).dimension ∧
      0 < 1 ∧
      1 ≤ (((⟨1, [[0], [3]], [("a", [("t", .i 1)]), ("b", [("t", .i 1)])],
          [("a", 0), ("b", 1)], [(0, "a"), (1, "b")]⟩ : FaissVectorStore).searchCandidates
            [0] 1 (some [("t", MVal.i 1)])).filter
          (fun c => ((⟨1, [[0], [3]], [("a", [("t", .i 1)]), ("b", [("t", .i 1)])],
            [("a", 0), ("b", 1)], [(0, "a"), (1, "b")]⟩ : FaissVectorStore).toResult
              (some [("t", MVal.i 1)]) c).isSome)).length) ∧
    (∃ r, FaissVectorStore.search
        ⟨1, [[0], [3]], [("a", [("t", .i 1)]), ("b", [("t", .i 1)])],
          [("a", 0), ("b", 1)], [(0, "a"), (1, "b")]⟩
        [0] 1 (some [("t", MVal.i 1)]) = .ok r ∧
      r.length = 1 ∧
      (∀ x ∈ r, matchesFilters x.metadata [("t", MVal.i 1)] = true) ∧
      List.Sorted (· ≤ ·) (r.map SearchResult.distance)) :=
  ⟨⟨by decide, by decide, by decide⟩,
    search_filtered_amended
      ⟨1, [[0], [3]], [("a", [("t", .i 1)]), ("b", [("t", .i 1)])],
        [("a", 0), ("b", 1)], [(0, "a"), (1, "b")]⟩
      [0] 1 [("t", MVal.i 1)] (by decide) (by decide) (by decide)⟩

/-! ## Chunker lemmas: splitting preserves the text -/

theorem splitKeepAux_flatten (sep : List Char) (hsep : sep ≠ []) :
    ∀ (fuel : Nat) (t acc : List Char), t.length ≤ fuel →
      (splitKeepAux sep fuel t acc).flatten = acc.reverse ++ t := by
  intro fuel
  induction fuel with
  | zero => intro t acc _; simp [splitKeepAux]
  | succ fuel ih =>
    intro t acc hlen
    cases t with
    | nil => simp [splitKeepAux]
    | cons c rest =>
      by_cases hpre : sep.isPrefixOf (c :: rest) = true
      · have hprefix : sep <+: c :: rest := List.isPrefixOf_iff_prefix.mp hpre
        obtain ⟨t2, ht2⟩ := hprefix
        cases sep with
        | nil => exact absurd rfl hsep
        | cons s0 stail =>
          have hc : s0 = c := by
            have := ht2
            simp only [List.cons_append, List.cons.injEq] at this
            exact this.1
          have hrest : rest = stail ++ t2 := by
            have := ht2
            simp only [List.cons_append, List.cons.injEq] at this
            exact this.2.symm
          have hdrop : rest.drop ((s0 :: stail).length - 1) = t2 := by
            rw [hrest]
            simp
          have hdlen : (rest.drop ((s0 :: stail).length - 1)).length ≤ fuel := by
            rw [List.length_drop]
            simp only [List.length_cons] at hlen ⊢
            omega
          simp only [splitKeepAux, hpre, if_true, List.flatten_cons]
          rw [ih _ _ hdlen, hdrop]
          simp [hc, hrest]
      · simp only [splitKeepAux, hpre, Bool.false_eq_true, if_false]
        rw [ih rest (c :: acc) (by simpa using Nat.le_of_succ_le_succ (by simpa using hlen))]
        simp

theorem splitKeep_flatten (sep t : List Char) (hsep : sep ≠ []) :
    (splitKeep sep t).flatten = t := by
  unfold splitKeep
  rw [splitKeepAux_flatten sep hsep t.length t [] le_rfl]
  simp

theorem mergePairs_flatten : ∀ l : List (List Char), (mergePairs l).flatten = l.flatten
  | [] => rfl
  | [a] => rfl
  | a :: b :: rest => by
    simp only [mergePairs, List.flatten_cons]
    rw [mergePairs_flatten rest]
    simp

theorem filter_nonempty_flatten : ∀ l : List (List Char),
    (l.filter (fun s => !s.isEmpty)).flatten = l.flatten := by
  intro l
  induction l with
  | nil => rfl
  | cons x xs ih =>
    by_cases hx : x.isEmpty = true
    · have : x = [] := List.isEmpty_iff.mp hx
      simp [List.filter_cons, hx, ih, this]
    · simp only [List.filter_cons, hx]
      simp only [Bool.not_false, Bool.not_eq_true] at hx ⊢
      simp [hx, ih]

theorem map_singleton_flatten : ∀ t : List Char, (t.map (fun c => [c])).flatten = t := by
  intro t
  induction t with
  | nil => rfl
  | cons c rest ih => simp [ih]

theorem flatMap_flatten_id {α : Type} (f : List α → List (List α)) :
    ∀ l : List (List α), (∀ s ∈ l, (f s).flatten = s) → (l.flatMap f).flatten = l.flatten := by
  intro l
  induction l with
  | nil => intro _; rfl
  | cons x xs ih =>
    intro h
    simp only [List.flatMap_cons, List.flatten_append, List.flatten_cons]
    rw [h x (List.mem_cons_self _ _), ih (fun s hs => h s (List.mem_cons_of_mem _ hs))]

/-- Recursive splitting preserves the text: the pieces concatenate back to
the input. -/
theorem splitRec_flatten (cs : Nat) (ks : Bool) :
    ∀ (seps : List (List Char)) (t : List Char), (splitRec cs ks seps t).flatten = t := by
  intro seps
  induction seps with
  | nil =>
    intro t
    by_cases ht : t.isEmpty <;> simp [splitRec, ht]
    simpa using List.isEmpty_iff.mp (by simpa using ht)
  | cons sep rest ih =>
    intro t
    simp only [splitRec]
    rw [flatMap_flatten_id]
    · cases hsep : sep.isEmpty with
      | true =>
        have hsepnil : sep = [] := List.isEmpty_iff.mp hsep
        simp [hsep, hsepnil, filter_nonempty_flatten, map_singleton_flatten]
      | false =>
        have hsepne : sep ≠ [] := fun h => by simp [h] at hsep
        cases ks with
        | true =>
          simp [hsep, filter_nonempty_flatten, mergePairs_flatten,
            splitKeep_flatten sep t hsepne]
        | false =>
          simp [hsep, filter_nonempty_flatten, splitKeep_flatten sep t hsepne]
    · intro s hs
      by_cases hb : s.length ≤ cs <;> simp [hb, ih]

/-! ## C4 — chunk size bound -/

theorem pySuffix_length_le (n : Nat) (l : List Char) : (pySuffix n l).length ≤ n := by
  simp only [pySuffix, List.length_drop]
  omega

/-- The merge loop emits only chunks of length `≤ chunk_size + chunk_overlap`
when every incoming piece has length `≤ chunk_size`. -/
theorem mergeLoop_bound (cs co : Nat) :
    ∀ (splits cur : List (List Char)) (len : Nat),
      (∀ s ∈ splits, s.length ≤ cs) → len = cur.flatten.length → len ≤ cs + co →
      ∀ c ∈ mergeLoop cs co splits cur len, c.length ≤ cs + co := by
  intro splits
  induction splits with
  | nil =>
    intro cur len _ hcur hbound c hc
    simp only [mergeLoop] at hc
    by_cases hemp : cur.isEmpty = true
    · simp [hemp] at hc
    · simp only [hemp, Bool.false_eq_true, if_false, List.mem_singleton] at hc
      subst hc; omega
  | cons s rest ih =>
    intro cur len hsplits hcur hbound c hc
    have hs : s.length ≤ cs := hsplits s (List.mem_cons_self _ _)
    have hrest : ∀ x ∈ rest, x.length ≤ cs := fun x hx => hsplits x (List.mem_cons_of_mem _ hx)
    simp only [mergeLoop] at hc
    by_cases hcond : cs < len + s.length ∧ ¬ cur.isEmpty = true
    · rw [if_pos hcond] at hc
      rcases List.mem_cons.mp hc with rfl | hc2
      · omega
      · set chunk := cur.flatten with hchunk
        set ov : List Char := if 0 < co then pySuffix co chunk else [] with hov
        have hovle : ov.length ≤ co := by
          rw [hov]
          by_cases h0 : 0 < co
          · simpa [h0] using pySuffix_length_le co chunk
          · simp [h0]
        by_cases hove : ov.isEmpty = true
        · refine ih [s] s.length hrest (by simp) (by omega) c ?_
          simpa [hove, List.isEmpty_iff.mp hove] using hc2
        · refine ih [ov, s] (ov.length + s.length) hrest (by simp) (by omega) c ?_
          simpa [hove] using hc2
    · rw [if_neg hcond] at hc
      have hlen2 : len + s.length = (cur ++ [s]).flatten.length := by
        simp [hcur]
      have hb2 : len + s.length ≤ cs + co := by
        rcases Decidable.not_and_iff_or_not.mp hcond with h | h
        · omega
        · have : cur = [] := List.isEmpty_iff.mp (Decidable.of_not_not h)
          rw [hcur, this]
          simpa using Nat.le_trans hs (Nat.le_add_right cs co)
      exact ih (cur ++ [s]) (len + s.length) hrest hlen2 hb2 c hc

/-- Pushing a new separator in front of a piece-size-bounded recursive split
keeps it bounded: every piece is either directly `≤ chunk_size` or re-split
with the remaining separators. -/
theorem splitRec_cons_bound (cs : Nat) (ks : Bool) (sep : List Char) (rest : List (List Char))
    (h : ∀ t, ∀ s ∈ splitRec cs ks rest t, s.length ≤ cs) :
    ∀ t, ∀ s ∈ splitRec cs ks (sep :: rest) t, s.length ≤ cs := by
  intro t s hs
  simp only [splitRec, List.mem_flatMap] at hs
  obtain ⟨piece, _, hmem⟩ := hs
  by_cases hb : piece.length ≤ cs
  · simp only [hb, if_true, List.mem_singleton] at hmem
    subst hmem; exact hb
  · simp only [hb, if_false] at hmem
    exact h piece s hmem

/-- With the empty-string separator (the base of the default list) every
piece is a single character, hence `≤ chunk_size` whenever `chunk_size ≥ 1`
(guaranteed by the constructor). -/
theorem splitRec_empty_sep_bound (cs : Nat) (ks : Bool) (hcs : 0 < cs) :
    ∀ t, ∀ s ∈ splitRec cs ks [[]] t, s.length ≤ cs := by
  intro t s hs
  unfold splitRec at hs
  simp only [List.isEmpty_nil, if_true, Bool.not_true, Bool.and_false, Bool.false_eq_true,
    if_false, List.mem_flatMap] at hs
  obtain ⟨piece, hpiece, hmem⟩ := hs
  have hp1 : piece.length = 1 := by
    simp only [List.mem_filter, List.mem_map] at hpiece
    obtain ⟨⟨c, _, rfl⟩, _⟩ := hpiece
    rfl
  have hble : piece.length ≤ cs := by omega
  simp only [if_pos hble, List.mem_singleton] at hmem
  subst hmem
  exact hble

/-- With the default separator list no piece handed to the merge pass exceeds
`chunk_size`: the character-level base case guarantees it. -/
theorem splitRec_default_bound (cs : Nat) (ks : Bool) (hcs : 0 < cs) :
    ∀ t, ∀ s ∈ splitRec cs ks defaultSeparators t, s.length ≤ cs := by
  have h0 := splitRec_empty_sep_bound cs ks hcs
  have h1 := splitRec_cons_bound cs ks [' '] [[]] h0
  have h2 := splitRec_cons_bound cs ks ['.', ' '] [[' '], []] h1
  have h3 := splitRec_cons_bound cs ks ['\n'] [['.', ' '], [' '], []] h2
  exact splitRec_cons_bound cs ks ['\n', '\n'] [['\n'], ['.', ' '], [' '], []] h3

/-- C4: with the default separator list (whose last separator is the empty
string, splitting into single characters) and a positive `chunk_size`, every
chunk produced by `split_text` satisfies
`len(chunk) ≤ chunk_size + chunk_overlap`; no oversized indivisible segment
can exist, so the bound holds without exception. -/
theorem splitText_chunk_bound (cs co : Nat) (text : List Char) (hcs : 0 < cs) :
    ∀ c ∈ splitText cs co true defaultSeparators text, c.length ≤ cs + co := by
  intro c hc
  unfold splitText at hc
  by_cases hguard : (text.isEmpty || (pyStrip text).isEmpty) = true
  · simp [hguard] at hc
  · rw [if_neg hguard] at hc
    unfold mergeSplits at hc
    by_cases hemp : (splitRec cs true defaultSeparators text).isEmpty = true
    · simp [hemp] at hc
    · rw [if_neg hemp] at hc
      exact mergeLoop_bound cs co (splitRec cs true defaultSeparators text) [] 0
        (splitRec_default_bound cs true hcs text) (by simp) (by omega) c hc

/-- Witness for C4 at a concrete input. -/
theorem splitText_chunk_bound_witness :
    0 < 4 ∧ ∀ c ∈ splitText 4 1 true defaultSeparators "ab cd ef".data, c.length ≤ 4 + 1 :=
  ⟨by decide, splitText_chunk_bound 4 1 "ab cd ef".data (by decide)⟩

/-! ## C10 — `split_text` is the identity on texts that already fit -/

/-- When the pieces still to merge all fit together with the current chunk
inside `chunk_size`, the merge loop emits a single chunk: their
concatenation. -/
theorem mergeLoop_small (cs co : Nat) :
    ∀ (splits cur : List (List Char)) (len : Nat),
      len = cur.flatten.length → len + (splits.map List.length).sum ≤ cs →
      mergeLoop cs co splits cur len =
        if cur.isEmpty ∧ splits.isEmpty then [] else [cur.flatten ++ splits.flatten] := by
  intro splits
  induction splits with
  | nil =>
    intro cur len _ _
    by_cases hemp : cur.isEmpty = true <;> simp [mergeLoop, hemp]
  | cons s rest ih =>
    intro cur len hlen hsum
    have hnocond : ¬ (cs < len + s.length ∧ ¬ cur.isEmpty = true) := by
      intro h
      have : len + s.length ≤ cs := by
        simp only [List.map_cons, List.sum_cons] at hsum
        omega
      omega
    simp only [mergeLoop, if_neg hnocond]
    rw [ih (cur ++ [s]) (len + s.length) (by simp [hlen])
      (by simp only [List.map_cons, List.sum_cons] at hsum ⊢; omega)]
    have hne : (cur ++ [s]).isEmpty = false := by simp
    simp [hne]

/-- C10: every text that is not whitespace-only (hence non-empty) and of
length at most `chunk_size` is returned as the single chunk `[text]` by
`split_text` with the default separator list: splitting followed by merging
is the identity on texts that already fit in one chunk. -/
theorem splitText_small_id (cs co : Nat) (text : List Char)
    (hstrip : pyStrip text ≠ []) (hlen : text.length ≤ cs) :
    splitText cs co true defaultSeparators text = [text] := by
  have htext : text ≠ [] := by
    intro h; exact hstrip (by simp [h, pyStrip])
  have hguard : (text.isEmpty || (pyStrip text).isEmpty) = false := by
    simp only [Bool.or_eq_false_iff, List.isEmpty_eq_false]
    exact ⟨htext, hstrip⟩
  unfold splitText
  rw [hguard]
  simp only [Bool.false_eq_true, if_false]
  have hflat : (splitRec cs true defaultSeparators text).flatten = text :=
    splitRec_flatten cs true defaultSeparators text
  have hne : (splitRec cs true defaultSeparators text).isEmpty = false := by
    rcases h : splitRec cs true defaultSeparators text with _ | ⟨x, xs⟩
    · rw [h] at hflat
      exact absurd hflat.symm htext
    · rfl
  unfold mergeSplits
  rw [hne]
  simp only [Bool.false_eq_true, if_false]
  have hsum : 0 + ((splitRec cs true defaultSeparators text).map List.length).sum ≤ cs := by
    rw [Nat.zero_add, ← List.length_flatten, hflat]
    exact hlen
  rw [mergeLoop_small cs co _ [] 0 (by simp) hsum]
  have hnemp : ¬ (([] : List (List Char)).isEmpty ∧
      (splitRec cs true defaultSeparators text).isEmpty) := by
    intro h
    rw [hne] at h
    exact Bool.false_ne_true h.2
  rw [if_neg hnemp]
  simp [hflat]

/-- Witness for C10 at a concrete input. -/
theorem splitText_small_id_witness :
    pyStrip "hola".data ≠ [] ∧ ("hola".data).length ≤ 5 ∧
    splitText 5 1 true defaultSeparators "hola".data = ["hola".data] :=
  ⟨by decide, by decide, splitText_small_id 5 1 "hola".data (by decide) (by decide)⟩

/-! ## C5 — overlap invariant between adjacent chunks -/

/-- Once the merge loop is running with a non-empty current chunk, the chunk
list it produces is non-empty, its head extends the current chunk, and every
adjacent pair is linked by the overlap: the trailing `chunk_overlap`
characters of a chunk are a prefix of the next chunk. -/
theorem mergeLoop_chain (cs co : Nat) (hco : 0 < co) :
    ∀ (splits cur : List (List Char)) (len : Nat), cur ≠ [] →
      ∃ hd tl, mergeLoop cs co splits cur len = hd :: tl ∧
        cur.flatten <+: hd ∧
        List.Chain' (fun a b => pySuffix co a <+: b) (hd :: tl) := by
  intro splits
  induction splits with
  | nil =>
    intro cur len hcur
    refine ⟨cur.flatten, [], ?_, List.prefix_refl _, List.chain'_singleton _⟩
    simp [mergeLoop, List.isEmpty_eq_false.mpr hcur]
  | cons s rest ih =>
    intro cur len hcur
    by_cases hcond : cs < len + s.length ∧ ¬ cur.isEmpty = true
    · set chunk := cur.flatten with hchunk
      have hov : (if 0 < co then pySuffix co chunk else []) = pySuffix co chunk := if_pos hco
      by_cases hove : (pySuffix co chunk).isEmpty = true
      · obtain ⟨hd, tl, heq, hpre, hchain⟩ := ih [s] ((pySuffix co chunk).length + s.length)
          (by simp)
        refine ⟨chunk, hd :: tl, ?_, List.prefix_refl _, ?_⟩
        · simp only [mergeLoop, if_pos hcond, hov, hove, if_pos rfl]
          rw [← heq]
          rfl
        · rw [List.chain'_cons]
          exact ⟨by rw [List.isEmpty_iff.mp hove]; exact List.nil_prefix, hchain⟩
      · obtain ⟨hd, tl, heq, hpre, hchain⟩ := ih [pySuffix co chunk, s]
          ((pySuffix co chunk).length + s.length) (by simp)
        refine ⟨chunk, hd :: tl, ?_, List.prefix_refl _, ?_⟩
        · simp only [mergeLoop, if_pos hcond, hov, hove, Bool.false_eq_true, if_false]
          rw [← heq]
        · rw [List.chain'_cons]
          refine ⟨?_, hchain⟩
          have : pySuffix co chunk <+: [pySuffix co chunk, s].flatten := by
            simp only [List.flatten_cons, List.flatten_nil, List.append_nil]
            exact List.prefix_append _ _
          exact this.trans hpre
    · obtain ⟨hd, tl, heq, hpre, hchain⟩ := ih (cur ++ [s]) (len + s.length) (by simp)
      refine ⟨hd, tl, ?_, ?_, hchain⟩
      · simp only [mergeLoop, if_neg hcond]
        exact heq
      · refine List.IsPrefix.trans ?_ hpre
        simp only [List.flatten_append, List.flatten_cons, List.flatten_nil, List.append_nil]
        exact List.prefix_append _ _

/-- C5: for every text split with `chunk_overlap = V > 0` (and any separator
list), every pair of adjacent chunks `i`, `i+1` of the returned sequence is
linked by the overlap: the last `V` characters of chunk `i` (the whole chunk
when it is shorter than `V`, as in Python's `chunk[-V:]`) are a prefix of
chunk `i+1`. -/
theorem splitText_overlap_invariant (cs co : Nat) (seps : List (List Char))
    (text : List Char) (hco : 0 < co) :
    List.Chain' (fun a b => pySuffix co a <+: b) (splitText cs co true seps text) := by
  unfold splitText
  by_cases hguard : (text.isEmpty || (pyStrip text).isEmpty) = true
  · simp [hguard]
  · rw [if_neg (by simp [hguard])]
    unfold mergeSplits
    rcases hsp : splitRec cs true seps text with _ | ⟨s, rest⟩
    · simp
    · simp only [List.isEmpty_cons, Bool.false_eq_true, if_false]
      have hstep : mergeLoop cs co (s :: rest) [] 0 = mergeLoop cs co rest [s] (0 + s.length) := by
        simp [mergeLoop]
      rw [hstep]
      obtain ⟨hd, tl, heq, _, hchain⟩ := mergeLoop_chain cs co hco rest [s] (0 + s.length)
        (by simp)
      rw [heq]
      exact hchain

/-- Witness for C5 at a concrete input: chunks `["abcd", "cdef", "efgh"]`
with `chunk_overlap = 2`. -/
theorem splitText_overlap_witness :
    0 < 2 ∧
    splitText 4 2 true defaultSeparators "abcdefgh".data
      = ["abcd".data, "cdef".data, "efgh".data] ∧
    List.Chain' (fun a b => pySuffix 2 a <+: b)
      (splitText 4 2 true defaultSeparators "abcdefgh".data) :=
  ⟨by decide, by decide,
    splitText_overlap_invariant 4 2 defaultSeparators "abcdefgh".data (by decide)⟩

/-! ## C9 — store map invariants under add/delete/clear -/

theorem assocUpdate_append {α β : Type} [DecidableEq α] (l : List (α × β)) (k : α) (v : β)
    (h : k ∉ l.map Prod.fst) : assocUpdate l k v = l ++ [(k, v)] := by
  induction l with
  | nil => rfl
  | cons p ps ih =>
    have hp : p.1 ≠ k := by
      intro he
      exact h (by simp [← he])
    simp only [assocUpdate, hp, if_false, List.cons_append, List.cons.injEq, true_and]
    exact ih (fun hm => h (by simp [hm]))

theorem alookup_eq_none {α β : Type} [DecidableEq α] (l : List (α × β)) (k : α) :
    alookup k l = none ↔ k ∉ l.map Prod.fst := by
  induction l with
  | nil => simp [alookup]
  | cons p ps ih =>
    by_cases hp : p.1 = k
    · simp [alookup, hp]
    · simp [alookup, hp, ih, Ne.symm hp]

/-- The mapping-update loop of `add` preserves the map invariant when the new
ids are fresh and pairwise distinct; it touches neither the vectors nor the
dimension. -/
theorem addLoop_mapsInv :
    ∀ (pairs : List (String × Metad)) (s : FaissVectorStore) (pos : Nat),
      mapsInv s pos →
      (∀ p ∈ pairs, p.1 ∉ s.id_to_index.map Prod.fst) →
      (pairs.map Prod.fst).Nodup →
      mapsInv (FaissVectorStore.addLoop s pos pairs) (pos + pairs.length) ∧
      (FaissVectorStore.addLoop s pos pairs).index = s.index ∧
      (FaissVectorStore.addLoop s pos pairs).dimension = s.dimension := by
  intro pairs
  induction pairs with
  | nil =>
    intro s pos hinv _ _
    exact ⟨by simpa using hinv, rfl, rfl⟩
  | cons p rest ih =>
    intro s pos hinv hfresh hnodup
    obtain ⟨h1, h2, h3, h4⟩ := hinv
    have hfreshp : p.1 ∉ s.id_to_index.map Prod.fst := hfresh p (List.mem_cons_self _ _)
    have hposfresh : pos ∉ s.index_to_id.map Prod.fst := by
      rw [h1]
      simp
    have hmetafresh : p.1 ∉ s.id_to_metadata.map Prod.fst := by
      rw [h3]
      exact hfreshp
    have hupd1 : assocUpdate s.id_to_index p.1 pos = s.id_to_index ++ [(p.1, pos)] :=
      assocUpdate_append _ _ _ hfreshp
    have hupd2 : assocUpdate s.index_to_id pos p.1 = s.index_to_id ++ [(pos, p.1)] :=
      assocUpdate_append _ _ _ hposfresh
    have hupd3 : assocUpdate s.id_to_metadata p.1 p.2 = s.id_to_metadata ++ [(p.1, p.2)] :=
      assocUpdate_append _ _ _ hmetafresh
    have hstep : FaissVectorStore.addLoop s pos (p :: rest) =
        FaissVectorStore.addLoop
          { s with
            id_to_index := s.id_to_index ++ [(p.1, pos)]
            index_to_id := s.index_to_id ++ [(pos, p.1)]
            id_to_metadata := s.id_to_metadata ++ [(p.1, p.2)] }
          (pos + 1) rest := by
      conv =>
        lhs
        rw [show (p : String × Metad) = (p.1, p.2) from rfl]
      simp only [FaissVectorStore.addLoop, hupd1, hupd2, hupd3]
    have hinv2 : mapsInv
        { s with
          id_to_index := s.id_to_index ++ [(p.1, pos)]
          index_to_id := s.index_to_id ++ [(pos, p.1)]
          id_to_metadata := s.id_to_metadata ++ [(p.1, p.2)] }
        (pos + 1) := by
      refine ⟨?_, ?_, ?_, ?_⟩
      · simp [h1, List.range_succ]
      · simp [h2]
      · simp [h3]
      · simp only [List.map_append, List.map_cons, List.map_nil]
        rw [List.nodup_append]
        exact ⟨h4, List.nodup_singleton _, by simpa using hfreshp⟩
    have hfresh2 : ∀ q ∈ rest,
        q.1 ∉ ({ s with
          id_to_index := s.id_to_index ++ [(p.1, pos)]
          index_to_id := s.index_to_id ++ [(pos, p.1)]
          id_to_metadata := s.id_to_metadata ++ [(p.1, p.2)] } :
            FaissVectorStore).id_to_index.map Prod.fst := by
      intro q hq
      simp only [List.map_append, List.map_cons, List.map_nil, List.mem_append,
        List.mem_singleton, not_or]
      refine ⟨fun hm => hfresh q (List.mem_cons_of_mem _ hq) hm, ?_⟩
      intro he
      simp only [List.map_cons, List.nodup_cons] at hnodup
      exact hnodup.1 (he ▸ List.mem_map.mpr ⟨q, hq, rfl⟩)
    have hnodup2 : (rest.map Prod.fst).Nodup := by
      simp only [List.map_cons, List.nodup_cons] at hnodup
      exact hnodup.2
    obtain ⟨hi, hidx, hdim⟩ := ih _ (pos + 1) hinv2 hfresh2 hnodup2
    rw [hstep]
    refine ⟨?_, hidx, hdim⟩
    have : pos + (p :: rest).length = (pos + 1) + rest.length := by
      simp only [List.length_cons]
      omega
    rw [this]
    exact hi

/-- `clear` establishes the invariant unconditionally. -/
theorem clear_storeInv (s : FaissVectorStore) : storeInv s.clear := by
  refine ⟨by simp [FaissVectorStore.clear], by simp [FaissVectorStore.clear],
    by simp [FaissVectorStore.clear], by simp [FaissVectorStore.clear],
    by intro v hv; simp [FaissVectorStore.clear] at hv⟩

/-- A successful `add` whose ids are pairwise distinct preserves the
invariant. -/
theorem add_storeInv (s : FaissVectorStore) (emb : List (List Int)) (ids : List String)
    (metas : Option (List Metad)) (s2 : FaissVectorStore)
    (hinv : storeInv s) (hnodup : ids.Nodup) (h : s.add emb ids metas = .ok s2) :
    storeInv s2 := by
  obtain ⟨h1, h2, h3, h4, h5⟩ := hinv
  unfold FaissVectorStore.add at h
  split_ifs at h with hc1 hc2 hc3 hc4
  have hlen : ids.length = emb.length := not_ne_iff.mp hc2
  set ms := (match metas with
    | some ms => ms
    | none => ids.map (fun _ => ([] : Metad))) with hmsdef
  have hms : ms.length = ids.length := by
    rcases metas with _ | msl
    · simp [hmsdef]
    · push_neg at hc3
      have := hc3 msl rfl
      simp [hmsdef, this, hlen]
  have hpairs : (ids.zip ms).map Prod.fst = ids :=
    List.map_fst_zip _ _ (by omega)
  have hpairslen : (ids.zip ms).length = ids.length := by
    rw [List.length_zip]
    omega
  have hinv1 : mapsInv { s with index := s.index ++ emb } s.index.length := ⟨h1, h2, h3, h4⟩
  have hfresh : ∀ p ∈ ids.zip ms,
      p.1 ∉ ({ s with index := s.index ++ emb } :
        FaissVectorStore).id_to_index.map Prod.fst := by
    intro p hp hmem
    push_neg at hc4
    have hpin : p.1 ∈ ids := by
      rw [← hpairs]
      exact List.mem_map.mpr ⟨p, hp, rfl⟩
    have hnone : alookup p.1 s.id_to_index = none :=
      Option.not_isSome_iff_eq_none.mp (by simpa using hc4 p.1 hpin)
    exact (alookup_eq_none _ _).mp hnone (by simpa using hmem)
  have hnodup2 : ((ids.zip ms).map Prod.fst).Nodup := by
    rw [hpairs]
    exact hnodup
  obtain ⟨hi, hidx, hdim⟩ := addLoop_mapsInv (ids.zip ms)
    { s with index := s.index ++ emb } s.index.length hinv1 hfresh hnodup2
  injection h with h
  subst h
  obtain ⟨g1, g2, g3, g4⟩ := hi
  refine ⟨?_, g2, g3, g4, ?_⟩
  · rw [g1, hidx]
    congr 1
    simp only [List.length_append]
    omega
  · intro v hv
    rw [hidx] at hv
    rw [hdim]
    rcases List.mem_append.mp hv with hv | hv
    · exact h5 v hv
    · push_neg at hc1
      exact hc1 v hv

/-- A successful `delete` preserves the invariant (the surviving ids are the
distinct keys of `id_to_index`, so the rebuild re-adds distinct fresh ids to
a cleared store). -/
theorem delete_storeInv (s : FaissVectorStore) (ids : List String) (s2 : FaissVectorStore)
    (n : Nat) (hinv : storeInv s) (h : s.delete ids = .ok (s2, n)) : storeInv s2 := by
  simp only [FaissVectorStore.delete] at h
  split_ifs at h with he hr
  · injection h with h
    rw [← (Prod.mk.injEq _ _ _ _).mp h |>.1]
    exact hinv
  · injection h with h
    rw [← (Prod.mk.injEq _ _ _ _).mp h |>.1]
    exact clear_storeInv s
  · set remaining := (s.id_to_index.map Prod.fst).filter
      (fun i => decide (i ∉ ids.filter (fun j => (alookup j s.id_to_index).isSome))) with hrem
    have hnodup : remaining.Nodup := List.Nodup.filter _ hinv.2.2.2.1
    cases hadd : FaissVectorStore.add s.clear
        (remaining.map (fun i => s.index.getD ((alookup i s.id_to_index).getD 0) []))
        remaining
        (some (remaining.map (fun i => (alookup i s.id_to_metadata).getD []))) with
    | ok s3 =>
      rw [hadd] at h
      injection h with h
      rw [← (Prod.mk.injEq _ _ _ _).mp h |>.1]
      exact add_storeInv s.clear _ _ _ s3 (clear_storeInv s) hnodup hadd
    | error e =>
      rw [hadd] at h
      cases h

/-- One applied operation preserves the invariant, provided an `add`'s ids
are pairwise distinct (failed operations leave the state unchanged). -/
theorem applyOp_storeInv (s : FaissVectorStore) (op : StoreOp)
    (hinv : storeInv s) (hop : opIdsNodup op) : storeInv (applyOp s op) := by
  cases op with
  | add e i m =>
    simp only [applyOp]
    split
    next s2 hadd => exact add_storeInv s e i m s2 hinv hop hadd
    next => exact hinv
  | del ids =>
    simp only [applyOp]
    split
    next s2 n hdel => exact delete_storeInv s ids s2 n hinv hdel
    next => exact hinv
  | clear =>
    simp only [applyOp]
    exact clear_storeInv s

theorem runOps_storeInv_aux :
    ∀ (ops : List StoreOp) (s : FaissVectorStore), storeInv s →
      (∀ op ∈ ops, opIdsNodup op) → storeInv (runOps s ops) := by
  intro ops
  induction ops with
  | nil => intro s h _; exact h
  | cons op rest ih =>
    intro s h hops
    have hstep : runOps s (op :: rest) = runOps (applyOp s op) rest := by
      simp [runOps]
    rw [hstep]
    exact ih (applyOp s op) (applyOp_storeInv s op h (hops op (List.mem_cons_self _ _)))
      (fun o ho => hops o (List.mem_cons_of_mem _ ho))

/-- C9 (amended): after every sequence of `add`, `delete` and `clear`
operations — with each `add` call's id list duplicate-free — the store
satisfies the invariant: `id_to_index` and `index_to_id` are mutually inverse
(with no repeated ids), the occupied positions are exactly the dense range
`0..size-1`, `id_to_metadata` has exactly the key set of `id_to_index`, and
every stored vector has the configured dimension.  (Without the
duplicate-free proviso a single `add` with a repeated id succeeds and breaks
the bijection — see the counterexample.) -/
theorem runOps_storeInv (dim : Nat) (ops : List StoreOp)
    (hops : ∀ op ∈ ops, opIdsNodup op) : storeInv (runOps (emptyStore dim) ops) := by
  refine runOps_storeInv_aux ops (emptyStore dim) ?_ hops
  refine ⟨by simp [emptyStore], by simp [emptyStore], by simp [emptyStore],
    by simp [emptyStore], ?_⟩
  intro v hv
  simp [emptyStore] at hv

/-- C9 counterexample: `add` with the duplicated id list `["a", "a"]`
succeeds (the duplicate check only compares against ids already present),
and the resulting state violates the invariant: both positions 0 and 1 map
to `"a"` while `id_to_index` maps `"a"` to 1 only, so the maps are not
mutually inverse bijections. -/
theorem runOps_dup_ids_cex :
    (FaissVectorStore.add (emptyStore 1) [[0], [0]] ["a", "a"] none).isOk = true ∧
    ¬ storeInv (runOps (emptyStore 1) [StoreOp.add [[0], [0]] ["a", "a"] none]) := by
  decide

/-- Witness for C9 at a concrete input: add two distinct ids, delete one. -/
theorem runOps_storeInv_witness :
    (∀ op ∈ [StoreOp.add [[1], [2]] ["a", "b"] none, StoreOp.del ["a"]], opIdsNodup op) ∧
    storeInv (runOps (emptyStore 1) [StoreOp.add [[1], [2]] ["a", "b"] none, StoreOp.del ["a"]]) :=
  ⟨by decide, runOps_storeInv 1 [StoreOp.add [[1], [2]] ["a", "b"] none, StoreOp.del ["a"]]
    (by decide)⟩
